import Mathlib

/-!
# Verification of the heredity inference engine

A shallow embedding of `heredity.py`: exact Bayesian-network inference over a
family tree.  Probabilities are modelled as exact rationals (`ℚ`); Python
dictionaries keyed by person become association lists keyed by `Name`;
Python sets become lists with decidable membership (only membership is ever
used, and accumulation is commutative addition, so enumeration order is
immaterial to all stated results).
-/

namespace Heredity

/-- Person identifiers (Python uses strings; only identity matters). -/
abbrev Name := Nat

/-- One row of the population dictionary built by `load_data`:
`mother`/`father` are `none` or the name of another person, `trait` is the
observed trait (`none` when unknown). -/
structure PersonInfo where
  mother : Option Name
  father : Option Name
  trait : Option Bool
  deriving DecidableEq, Repr

/-- The population dictionary `people`: an association list from names to
person records (`load_data` produces one entry per CSV row). -/
abbrev People := List (Name × PersonInfo)

/-- `PROBS["gene"]`: unconditional prior over gene count.  The catch-all
branch is the `2` row (the code only ever looks up gene counts 0, 1, 2). -/
def PROBS_gene : Nat → ℚ
  | 0 => 96/100
  | 1 => 3/100
  | _ => 1/100

/-- `PROBS["trait"]`: probability of the trait given the gene count.  The
catch-all branch is the `0` row (the code only ever looks up 0, 1, 2). -/
def PROBS_trait : Nat → Bool → ℚ
  | 2, true => 65/100
  | 2, false => 35/100
  | 1, true => 56/100
  | 1, false => 44/100
  | _, true => 1/100
  | _, false => 99/100

/-- `PROBS["mutation"]`. -/
def PROBS_mutation : ℚ := 1/100

/-- `pass_prob`: probability that a parent with `gene_count` copies passes
the gene on. -/
def pass_prob (gene_count : Nat) : ℚ :=
  if gene_count = 0 then PROBS_mutation
  else if gene_count = 1 then 1/2
  else 1 - PROBS_mutation

/-- The gene count a configuration assigns to a person: the first loop of
`joint_probability` (`1` if in `one_gene`, else `2` if in `two_genes`,
else `0`). -/
def geneOf (one_gene two_genes : List Name) (k : Name) : Nat :=
  if k ∈ one_gene then 1 else if k ∈ two_genes then 2 else 0

/-- The gene-probability factor computed inside `joint_probability`'s second
loop: the prior row when the person has no parents, otherwise the
independent-transmission combination of the parents' `pass_prob`.  A record
with exactly one parent is outside the population-model contract (the Python
dictionary lookup `joint_probes[None]` would raise); it is modelled as 0. -/
def gene_prob (one_gene two_genes : List Name) (k : Name) (inf : PersonInfo) : ℚ :=
  let gene := geneOf one_gene two_genes k
  match inf.mother, inf.father with
  | none, none => PROBS_gene gene
  | some mother, some father =>
      let mom_pass := pass_prob (geneOf one_gene two_genes mother)
      let dad_pass := pass_prob (geneOf one_gene two_genes father)
      if gene = 0 then (1 - mom_pass) * (1 - dad_pass)
      else if gene = 1 then mom_pass * (1 - dad_pass) + (1 - mom_pass) * dad_pass
      else mom_pass * dad_pass
  | _, _ => 0

/-- `joint_probes[key]["p"]`: one person's factor,
`p_gene * PROBS["trait"][gene][trait]`. -/
def person_factor (one_gene two_genes have_trait : List Name) (k : Name)
    (inf : PersonInfo) : ℚ :=
  gene_prob one_gene two_genes k inf *
    PROBS_trait (geneOf one_gene two_genes k) (decide (k ∈ have_trait))

/-- `joint_probability`: starting from `joint_prob = 1.0`, multiply in every
person's factor. -/
def joint_probability (people : People) (one_gene two_genes have_trait : List Name) : ℚ :=
  people.foldl (fun acc p => acc * person_factor one_gene two_genes have_trait p.1 p.2) 1

/-- One person's accumulator in `probabilities`: three gene buckets and two
trait buckets. -/
structure Dist where
  gene0 : ℚ
  gene1 : ℚ
  gene2 : ℚ
  traitTrue : ℚ
  traitFalse : ℚ
  deriving DecidableEq, Repr

/-- The all-zero accumulator `{"gene": {2:0,1:0,0:0}, "trait": {True:0,False:0}}`. -/
def zeroDist : Dist := ⟨0, 0, 0, 0, 0⟩

/-- Gene-bucket projection (bucket 2 is the catch-all; only 0,1,2 occur). -/
def Dist.geneW (d : Dist) : Nat → ℚ
  | 0 => d.gene0
  | 1 => d.gene1
  | _ => d.gene2

/-- Trait-bucket projection. -/
def Dist.traitW (d : Dist) : Bool → ℚ
  | true => d.traitTrue
  | false => d.traitFalse

/-- The body of `update`'s loop for one person: add `p` to the gene bucket
selected by `one_gene`/`two_genes` and to the trait bucket selected by
`have_trait`. -/
def updatePerson (one_gene two_genes have_trait : List Name) (p : ℚ)
    (k : Name) (d : Dist) : Dist :=
  let d1 :=
    if k ∈ one_gene then { d with gene1 := d.gene1 + p }
    else if k ∈ two_genes then { d with gene2 := d.gene2 + p }
    else { d with gene0 := d.gene0 + p }
  if k ∈ have_trait then { d1 with traitTrue := d1.traitTrue + p }
  else { d1 with traitFalse := d1.traitFalse + p }

/-- `update`: add the joint probability `p` into every person's buckets. -/
def update (probabilities : List (Name × Dist)) (one_gene two_genes have_trait : List Name)
    (p : ℚ) : List (Name × Dist) :=
  probabilities.map fun e => (e.1, updatePerson one_gene two_genes have_trait p e.1 e.2)

/-- Sum of one person's gene buckets (`sum(probabilities[key]["gene"].values())`). -/
def geneSum (d : Dist) : ℚ := d.gene0 + d.gene1 + d.gene2

/-- Sum of one person's trait buckets. -/
def traitSum (d : Dist) : ℚ := d.traitTrue + d.traitFalse

/-- The body of `normalize`'s loop for one person: divide every bucket by its
own distribution's sum.  Python's `ZeroDivisionError` is modelled as `none`. -/
def normalizePerson (d : Dist) : Option Dist :=
  if geneSum d = 0 ∨ traitSum d = 0 then none
  else some ⟨d.gene0 / geneSum d, d.gene1 / geneSum d, d.gene2 / geneSum d,
             d.traitTrue / traitSum d, d.traitFalse / traitSum d⟩

/-- `normalize`: normalize every person's two distributions; a
divide-by-zero anywhere aborts the whole call (modelled as `none`). -/
def normalize : List (Name × Dist) → Option (List (Name × Dist))
  | [] => some []
  | e :: rest =>
      match normalizePerson e.2, normalize rest with
      | some d, some r => some ((e.1, d) :: r)
      | _, _ => none

/-- `powerset`: all subsets of `s`.  The Python version lists subsets by
increasing size; this recursion lists exactly the same subsets (each once,
for duplicate-free input) in a different order — immaterial downstream,
since the only consumers fold commutative additions over the result. -/
def powerset : List Name → List (List Name)
  | [] => [[]]
  | a :: rest => powerset rest ++ (powerset rest).map (a :: ·)

/-- The evidence check in `main`: some person has a known trait that differs
from their membership in `have_trait`. -/
def fails_evidence (people : People) (have_trait : List Name) : Bool :=
  people.any fun p =>
    match p.2.trait with
    | some t => t != decide (p.1 ∈ have_trait)
    | none => false

/-- The all-zero accumulator dictionary `probabilities` built in `main`. -/
def initProbs (people : People) : List (Name × Dist) :=
  people.map fun p => (p.1, zeroDist)

/-- The accumulation loop of `main`: over every trait subset (skipping those
failing evidence), every `one_gene` subset, and every `two_genes` subset of
the remaining names, `update` with the configuration's `joint_probability`. -/
def run_inference (people : People) : List (Name × Dist) :=
  let names := people.map Prod.fst
  (powerset names).foldl
    (fun probs have_trait =>
      if fails_evidence people have_trait then probs
      else
        (powerset names).foldl
          (fun probs one_gene =>
            (powerset (names.filter fun x => decide (x ∉ one_gene))).foldl
              (fun probs two_genes =>
                update probs one_gene two_genes have_trait
                  (joint_probability people one_gene two_genes have_trait))
              probs)
          probs)
    (initProbs people)

/-- The core pipeline of `main`: accumulate, then normalize. -/
def infer (people : People) : Option (List (Name × Dist)) :=
  normalize (run_inference people)

/-! ## Analysis definitions -/

/-- The (one-gene-set, two-gene-set, trait-set) triples processed by the
accumulation loop, in loop order: only evidence-consistent trait sets
survive. -/
def cfgTriples (people : People) : List (List Name × List Name × List Name) :=
  let names := people.map Prod.fst
  ((powerset names).filter fun ht => !fails_evidence people ht).flatMap fun ht =>
    (powerset names).flatMap fun og =>
      (powerset (names.filter fun x => decide (x ∉ og))).map fun tg => (og, tg, ht)

/-- The accumulator a single person ends up with after the whole loop. -/
def accumDist (people : People) (k : Name) : Dist :=
  (cfgTriples people).foldl
    (fun d c => updatePerson c.1 c.2.1 c.2.2 (joint_probability people c.1 c.2.1 c.2.2) k d)
    zeroDist

/-- Spec-side consistency of a trait set with the evidence: every person
with a known observed trait is in `have_trait` exactly when the observation
is `true`. -/
def evidence_consistent (people : People) (have_trait : List Name) : Prop :=
  ∀ p ∈ people, ∀ t, p.2.trait = some t → ((p.1 ∈ have_trait) ↔ t = true)

/-- A fully specified `update` call: the three sets and the probability. -/
abbrev Config := List Name × List Name × List Name × ℚ

/-- A sequence of `update` calls, as performed by the accumulation loop. -/
def applyAll (probs : List (Name × Dist)) (cfgs : List Config) : List (Name × Dist) :=
  cfgs.foldl (fun ps c => update ps c.1 c.2.1 c.2.2.1 c.2.2.2) probs

/-- Elementwise addition of two accumulators (for shard merging). -/
def Dist.add (d1 d2 : Dist) : Dist :=
  ⟨d1.gene0 + d2.gene0, d1.gene1 + d2.gene1, d1.gene2 + d2.gene2,
   d1.traitTrue + d2.traitTrue, d1.traitFalse + d2.traitFalse⟩

/-- Merge two accumulator dictionaries by elementwise addition. -/
def mergeAccum (a b : List (Name × Dist)) : List (Name × Dist) :=
  List.zipWith (fun e1 e2 => (e1.1, Dist.add e1.2 e2.2)) a b

/-- Look a person's distributions up in a result list. -/
def lookupDist (l : List (Name × Dist)) (k : Name) : Option Dist :=
  (l.find? fun e => e.1 == k).map Prod.snd

/-- The per-person increment one `update` call makes, as a standalone value. -/
def deltaDist (one_gene two_genes have_trait : List Name) (p : ℚ) (k : Name) : Dist :=
  updatePerson one_gene two_genes have_trait p k zeroDist

/-- Two lists denote the same set. -/
def memEq (s t : List Name) : Prop := ∀ x, x ∈ s ↔ x ∈ t

/-- Two lists denote sets that agree away from `n`. -/
def memEqOff (n : Name) (s t : List Name) : Prop := ∀ x, x ≠ n → (x ∈ s ↔ x ∈ t)

/-! ## Exact integer mirror

Every table entry of `PROBS` is a multiple of `1/100`, so each person factor
is `N / 10^6` and each joint probability is `N / 10^6^people.length` for a
natural number `N` computed by mirrors of the source functions.  The mirror
lets concrete runs be evaluated by kernel computation on `ℕ`. -/

def priorN : Nat → ℕ
  | 0 => 96
  | 1 => 3
  | _ => 1

def traitProbN : Nat → Bool → ℕ
  | 2, true => 65
  | 2, false => 35
  | 1, true => 56
  | 1, false => 44
  | _, true => 1
  | _, false => 99

def passN (gene_count : Nat) : ℕ :=
  if gene_count = 0 then 1 else if gene_count = 1 then 50 else 99

def geneProbN (one_gene two_genes : List Name) (k : Name) (inf : PersonInfo) : ℕ :=
  let gene := geneOf one_gene two_genes k
  match inf.mother, inf.father with
  | none, none => 100 * priorN gene
  | some mother, some father =>
      let m := passN (geneOf one_gene two_genes mother)
      let d := passN (geneOf one_gene two_genes father)
      if gene = 0 then (100 - m) * (100 - d)
      else if gene = 1 then m * (100 - d) + (100 - m) * d
      else m * d
  | _, _ => 0

def factorN (one_gene two_genes have_trait : List Name) (k : Name) (inf : PersonInfo) : ℕ :=
  geneProbN one_gene two_genes k inf *
    traitProbN (geneOf one_gene two_genes k) (decide (k ∈ have_trait))

def jpN (people : People) (one_gene two_genes have_trait : List Name) : ℕ :=
  people.foldl (fun acc p => acc * factorN one_gene two_genes have_trait p.1 p.2) 1

/-- Integer mirror of a person's accumulator. -/
structure DistN where
  g0 : ℕ
  g1 : ℕ
  g2 : ℕ
  tT : ℕ
  tF : ℕ
  deriving DecidableEq, Repr

def zeroDistN : DistN := ⟨0, 0, 0, 0, 0⟩

def scaleDist (D : ℚ) (d : DistN) : Dist :=
  ⟨(d.g0 : ℚ) / D, (d.g1 : ℚ) / D, (d.g2 : ℚ) / D, (d.tT : ℚ) / D, (d.tF : ℚ) / D⟩

def updatePersonN (one_gene two_genes have_trait : List Name) (pN : ℕ)
    (k : Name) (d : DistN) : DistN :=
  let d1 :=
    if k ∈ one_gene then { d with g1 := d.g1 + pN }
    else if k ∈ two_genes then { d with g2 := d.g2 + pN }
    else { d with g0 := d.g0 + pN }
  if k ∈ have_trait then { d1 with tT := d1.tT + pN }
  else { d1 with tF := d1.tF + pN }

/-- Integer mirror of `accumDist`. -/
def accumDistN (people : People) (k : Name) : DistN :=
  (cfgTriples people).foldl
    (fun d c => updatePersonN c.1 c.2.1 c.2.2 (jpN people c.1 c.2.1 c.2.2) k d)
    zeroDistN

/-! ## Concrete populations used for witnesses and counterexamples -/

/-- Two founders and their child; the child exhibits the trait. -/
def popFam : People :=
  [(0, ⟨none, none, none⟩), (1, ⟨none, none, none⟩), (2, ⟨some 0, some 1, some true⟩)]

/-- An isolated, evidence-free person next to an unrelated person observed
to have the trait. -/
def popIso : People := [(0, ⟨none, none, none⟩), (1, ⟨none, none, some true⟩)]

/-- A single person observed to have the trait. -/
def popSolo : People := [(0, ⟨none, none, some true⟩)]

/-- Integer accumulator of each founder of `popFam` (scale `10^18`). -/
def dN0fam : DistN :=
  ⟨32943648000000000, 8881200000000000, 5577637000000000,
   8928372530000000, 38474112470000000⟩

/-- Integer accumulator of the child of `popFam` (scale `10^18`). -/
def dN2fam : DistN :=
  ⟨9321902500000000, 37306920000000000, 773662500000000, 47402485000000000, 0⟩

/-! ## Fold and enumeration lemmas -/

lemma foldl_ite_skip {α β : Type} (c : α → Bool) (f : β → α → β) :
    ∀ (L : List α) (b : β),
      L.foldl (fun s x => if c x then s else f s x) b = (L.filter fun x => !c x).foldl f b := by
  intro L
  induction L with
  | nil => intro b; rfl
  | cons hd tl ih =>
      intro b
      by_cases h : c hd = true <;> simp [List.foldl_cons, h, ih]

lemma foldl_flatMap {α β γ : Type} (g : α → List γ) (f : β → γ → β) :
    ∀ (L : List α) (b : β),
      (L.flatMap g).foldl f b = L.foldl (fun s x => (g x).foldl f s) b := by
  intro L
  induction L with
  | nil => intro b; rfl
  | cons hd tl ih => intro b; simp [List.flatMap_cons, List.foldl_append, ih]

/-- `main`'s nested loops are one fold of `update` over `cfgTriples`. -/
lemma run_inference_eq_fold (people : People) :
    run_inference people =
      (cfgTriples people).foldl
        (fun probs c =>
          update probs c.1 c.2.1 c.2.2 (joint_probability people c.1 c.2.1 c.2.2))
        (initProbs people) := by
  unfold run_inference cfgTriples
  rw [foldl_ite_skip (fails_evidence people)]
  simp only [foldl_flatMap, List.foldl_map]

lemma foldl_update_map {γ : Type} (step : γ → Name → Dist → Dist) :
    ∀ (cfgs : List γ) (probs : List (Name × Dist)),
      cfgs.foldl (fun ps c => ps.map fun e => (e.1, step c e.1 e.2)) probs =
        probs.map fun e => (e.1, cfgs.foldl (fun d c => step c e.1 d) e.2) := by
  intro cfgs
  induction cfgs with
  | nil => intro probs; simp
  | cons hd tl ih =>
      intro probs
      simp only [List.foldl_cons, ih, List.map_map]
      rfl

/-- The accumulation acts independently on every person's entry. -/
lemma run_inference_entrywise (people : People) :
    run_inference people = people.map fun p => (p.1, accumDist people p.1) := by
  rw [run_inference_eq_fold]
  simp only [update]
  rw [foldl_update_map (γ := List Name × List Name × List Name)
    (fun c k d => updatePerson c.1 c.2.1 c.2.2 (joint_probability people c.1 c.2.1 c.2.2) k d)
    (cfgTriples people) (initProbs people)]
  simp only [initProbs, List.map_map]
  rfl

/-! ## Mirror correctness -/

lemma PROBS_gene_eq (g : Nat) : PROBS_gene g = ((100 * priorN g : ℕ) : ℚ) / 10000 := by
  rcases g with _ | _ | g <;> norm_num [PROBS_gene, priorN]

lemma PROBS_trait_eq (g : Nat) (b : Bool) :
    PROBS_trait g b = ((traitProbN g b : ℕ) : ℚ) / 100 := by
  rcases g with _ | _ | _ | g
  · rcases b <;> norm_num [PROBS_trait, traitProbN]
  · rcases b <;> norm_num [PROBS_trait, traitProbN]
  · rcases b <;> norm_num [PROBS_trait, traitProbN]
  · rcases b
    · show (99 : ℚ)/100 = ((99 : ℕ) : ℚ) / 100
      norm_num
    · show (1 : ℚ)/100 = ((1 : ℕ) : ℚ) / 100
      norm_num

lemma pass_prob_eq (g : Nat) : pass_prob g = ((passN g : ℕ) : ℚ) / 100 := by
  unfold pass_prob passN PROBS_mutation
  split_ifs <;> norm_num

lemma passN_le (g : Nat) : passN g ≤ 100 := by
  unfold passN; split_ifs <;> norm_num

lemma gene_prob_eq (og tg : List Name) (k : Name) (inf : PersonInfo) :
    gene_prob og tg k inf = ((geneProbN og tg k inf : ℕ) : ℚ) / 10000 := by
  unfold gene_prob geneProbN
  rcases inf.mother with _ | mo <;> rcases inf.father with _ | fa
  · simp only
    rw [PROBS_gene_eq]
  · simp
  · simp
  · simp only [pass_prob_eq]
    have hm := passN_le (geneOf og tg mo)
    have hf := passN_le (geneOf og tg fa)
    split_ifs <;>
      · push_cast [Nat.cast_sub hm, Nat.cast_sub hf]
        ring

lemma person_factor_eq (og tg ht : List Name) (k : Name) (inf : PersonInfo) :
    person_factor og tg ht k inf = ((factorN og tg ht k inf : ℕ) : ℚ) / 1000000 := by
  unfold person_factor factorN
  rw [gene_prob_eq, PROBS_trait_eq]
  push_cast
  ring

lemma foldl_mul_pair {M : Type} [CommMonoid M] (f : Name → PersonInfo → M) :
    ∀ (l : People) (a : M),
      l.foldl (fun acc p => acc * f p.1 p.2) a = a * (l.map fun p => f p.1 p.2).prod := by
  intro l
  induction l with
  | nil => intro a; simp
  | cons hd tl ih => intro a; simp [ih, mul_assoc]

lemma joint_probability_eq_prod (people : People) (og tg ht : List Name) :
    joint_probability people og tg ht =
      (people.map fun p => person_factor og tg ht p.1 p.2).prod := by
  unfold joint_probability
  rw [foldl_mul_pair (person_factor og tg ht), one_mul]

lemma jpN_eq_prod (people : People) (og tg ht : List Name) :
    jpN people og tg ht = (people.map fun p => factorN og tg ht p.1 p.2).prod := by
  unfold jpN
  rw [foldl_mul_pair (factorN og tg ht), one_mul]

lemma joint_probability_eq (people : People) (og tg ht : List Name) :
    joint_probability people og tg ht =
      ((jpN people og tg ht : ℕ) : ℚ) / 1000000 ^ people.length := by
  rw [joint_probability_eq_prod, jpN_eq_prod]
  induction people with
  | nil => simp
  | cons p ps ih =>
      simp only [List.map_cons, List.prod_cons, List.length_cons]
      rw [person_factor_eq, ih, pow_succ]
      push_cast
      ring

lemma updatePerson_scale (og tg ht : List Name) (pN : ℕ) (k : Name) (dN : DistN) (D : ℚ) :
    updatePerson og tg ht ((pN : ℚ) / D) k (scaleDist D dN) =
      scaleDist D (updatePersonN og tg ht pN k dN) := by
  unfold updatePerson updatePersonN scaleDist
  by_cases h1 : k ∈ og <;> by_cases h2 : k ∈ tg <;> by_cases h3 : k ∈ ht <;>
    simp [h1, h2, h3, add_div]

lemma accumDist_eq_scale (people : People) (k : Name) :
    accumDist people k = scaleDist (1000000 ^ people.length) (accumDistN people k) := by
  unfold accumDist accumDistN
  have hz : zeroDist = scaleDist (1000000 ^ people.length) zeroDistN := by
    simp [zeroDist, scaleDist, zeroDistN]
  rw [hz]
  generalize zeroDistN = dN
  induction cfgTriples people generalizing dN with
  | nil => rfl
  | cons c cs ih =>
      rw [List.foldl_cons, List.foldl_cons, joint_probability_eq people c.1 c.2.1 c.2.2,
        updatePerson_scale]
      exact ih _

/-! ## Normalization lemmas -/

lemma normalizePerson_none_iff (d : Dist) :
    normalizePerson d = none ↔ geneSum d = 0 ∨ traitSum d = 0 := by
  unfold normalizePerson
  split_ifs with h <;> simp [h]

lemma normalizePerson_some_eq (d : Dist) (h1 : geneSum d ≠ 0) (h2 : traitSum d ≠ 0) :
    normalizePerson d =
      some ⟨d.gene0 / geneSum d, d.gene1 / geneSum d, d.gene2 / geneSum d,
        d.traitTrue / traitSum d, d.traitFalse / traitSum d⟩ := by
  unfold normalizePerson
  rw [if_neg]
  push_neg
  exact ⟨h1, h2⟩

lemma normalizePerson_some_inv {d d' : Dist} (h : normalizePerson d = some d') :
    geneSum d ≠ 0 ∧ traitSum d ≠ 0 ∧
      d' = ⟨d.gene0 / geneSum d, d.gene1 / geneSum d, d.gene2 / geneSum d,
        d.traitTrue / traitSum d, d.traitFalse / traitSum d⟩ := by
  have hni : ¬(geneSum d = 0 ∨ traitSum d = 0) := by
    intro hc
    rw [normalizePerson, if_pos hc] at h
    cases h
  push_neg at hni
  rw [normalizePerson_some_eq d hni.1 hni.2] at h
  injection h with h'
  exact ⟨hni.1, hni.2, h'.symm⟩

lemma normalize_eq_none_iff :
    ∀ l : List (Name × Dist), normalize l = none ↔ ∃ e ∈ l, normalizePerson e.2 = none := by
  intro l
  induction l with
  | nil => simp [normalize]
  | cons e l ih =>
      rcases h1 : normalizePerson e.2 with _ | d
      · simp [normalize, h1]
      · rcases h2 : normalize l with _ | r
        · simp only [normalize, h1, h2]
          constructor
          · intro _
            rcases ih.mp h2 with ⟨e', he', hn⟩
            exact ⟨e', List.mem_cons_of_mem _ he', hn⟩
          · intro _; trivial
        · simp only [normalize, h1, h2]
          constructor
          · intro h; cases h
          · rintro ⟨e', he', hn⟩
            rcases List.mem_cons.mp he' with rfl | he''
            · rw [h1] at hn; cases hn
            · have := ih.mpr ⟨e', he'', hn⟩
              rw [h2] at this; cases this

lemma normalize_forall2 :
    ∀ (l r : List (Name × Dist)), normalize l = some r →
      List.Forall₂ (fun e e' : Name × Dist => e.1 = e'.1 ∧ normalizePerson e.2 = some e'.2) l r := by
  intro l
  induction l with
  | nil =>
      intro r h
      simp only [normalize, Option.some.injEq] at h
      subst h
      exact List.Forall₂.nil
  | cons e l ih =>
      intro r h
      rcases h1 : normalizePerson e.2 with _ | d <;> rcases h2 : normalize l with _ | r' <;>
        simp only [normalize, h1, h2, Option.some.injEq] at h
      · exact Option.noConfusion h
      · exact Option.noConfusion h
      · exact Option.noConfusion h
      · subst h
        exact List.Forall₂.cons ⟨rfl, h1⟩ (ih r' h2)

/-! ## Evidence-filter lemmas -/

lemma fails_evidence_false_iff (people : People) (have_trait : List Name) :
    fails_evidence people have_trait = false ↔ evidence_consistent people have_trait := by
  unfold fails_evidence evidence_consistent
  rw [List.any_eq_false]
  constructor
  · intro h p hp t htr
    have h' := h p hp
    rw [htr] at h'
    simp only [bne_iff_ne, ne_eq, not_not] at h'
    subst h'
    exact decide_eq_true_iff.symm
  · intro h p hp
    rcases htr : p.2.trait with _ | t
    · simp
    · simp only [bne_iff_ne, ne_eq, not_not]
      have hpt := h p hp t htr
      rcases t
      · exact (decide_eq_false fun hm => absurd (hpt.mp hm) (by simp)).symm
      · exact (decide_eq_true (hpt.mpr rfl)).symm

/-! ## Claim theorems C1 - C6 -/

/-- C1: `joint_probability` is the product, over all people, of
(gene-probability × trait-probability); for a parentless person the gene
probability is the fixed prior (0.96/0.03/0.01); the trait probability comes
from the fixed conditional table; the result is non-negative. -/
theorem C1_joint_probability_product (people : People) (one_gene two_genes have_trait : List Name) :
    joint_probability people one_gene two_genes have_trait =
      (people.map fun p =>
        gene_prob one_gene two_genes p.1 p.2 *
          PROBS_trait (geneOf one_gene two_genes p.1) (decide (p.1 ∈ have_trait))).prod ∧
    (∀ p : Name × PersonInfo, p ∈ people → p.2.mother = none → p.2.father = none →
      gene_prob one_gene two_genes p.1 p.2 = PROBS_gene (geneOf one_gene two_genes p.1)) ∧
    PROBS_gene 0 = 96/100 ∧ PROBS_gene 1 = 3/100 ∧ PROBS_gene 2 = 1/100 ∧
    PROBS_trait 2 true = 65/100 ∧ PROBS_trait 2 false = 35/100 ∧
    PROBS_trait 1 true = 56/100 ∧ PROBS_trait 1 false = 44/100 ∧
    PROBS_trait 0 true = 1/100 ∧ PROBS_trait 0 false = 99/100 ∧
    0 ≤ joint_probability people one_gene two_genes have_trait := by
  refine ⟨?_, ?_, rfl, rfl, rfl, rfl, rfl, rfl, rfl, rfl, rfl, ?_⟩
  · rw [joint_probability_eq_prod]
    simp only [person_factor]
  · intro p _ hm hf
    unfold gene_prob
    rw [hm, hf]
  · rw [joint_probability_eq]
    positivity

theorem C1_witness :
    gene_prob [] [] 0 ⟨none, none, some true⟩ = PROBS_gene (geneOf [] [] 0) :=
  (C1_joint_probability_product popSolo [] [] []).2.1 (0, ⟨none, none, some true⟩)
    (by simp [popSolo]) rfl rfl

/-- C2: for a person with both parents, the gene probability follows the
independent-transmission model built from `pass_prob`, whose values are the
mutation rate (0.01), one half, and one minus the mutation rate. -/
theorem C2_transmission (one_gene two_genes : List Name) (k : Name) (inf : PersonInfo)
    (mo fa : Name) (hm : inf.mother = some mo) (hf : inf.father = some fa) :
    pass_prob 0 = PROBS_mutation ∧ PROBS_mutation = 1/100 ∧ pass_prob 1 = 1/2 ∧
    pass_prob 2 = 1 - PROBS_mutation ∧
    gene_prob one_gene two_genes k inf =
      (let mom := pass_prob (geneOf one_gene two_genes mo)
       let dad := pass_prob (geneOf one_gene two_genes fa)
       match geneOf one_gene two_genes k with
       | 0 => (1 - mom) * (1 - dad)
       | 1 => mom * (1 - dad) + (1 - mom) * dad
       | _ => mom * dad) := by
  refine ⟨rfl, rfl, rfl, rfl, ?_⟩
  unfold gene_prob
  rw [hm, hf]
  rcases hg : geneOf one_gene two_genes k with _ | _ | g <;> simp [hg]

theorem C2_witness :
    gene_prob [] [] 1 ⟨some 0, some 0, none⟩ =
      (let mom := pass_prob (geneOf [] [] 0)
       let dad := pass_prob (geneOf [] [] 0)
       match geneOf [] [] 1 with
       | 0 => (1 - mom) * (1 - dad)
       | 1 => mom * (1 - dad) + (1 - mom) * dad
       | _ => mom * dad) :=
  (C2_transmission [] [] 1 ⟨some 0, some 0, none⟩ 0 0 rfl rfl).2.2.2.2

/-- C3: a trait set passes the evidence check exactly when every person with
a known observed trait is in it precisely when the observation says so; the
loop enumerates (and therefore the accumulation uses) exactly the consistent
trait sets, discarded before any joint probability is computed. -/
theorem C3_evidence_filter (people : People) (have_trait : List Name) :
    (fails_evidence people have_trait = false ↔ evidence_consistent people have_trait) ∧
    (have_trait ∈ (powerset (people.map Prod.fst)).filter (fun ht => !fails_evidence people ht) ↔
      have_trait ∈ powerset (people.map Prod.fst) ∧ evidence_consistent people have_trait) ∧
    ∀ c ∈ cfgTriples people, evidence_consistent people c.2.2 := by
  refine ⟨fails_evidence_false_iff people have_trait, ?_, ?_⟩
  · rw [List.mem_filter]
    simp [fails_evidence_false_iff]
  · intro c hc
    simp only [cfgTriples, List.mem_flatMap, List.mem_filter, List.mem_map] at hc
    obtain ⟨ht, ⟨_, hcons⟩, og, _, tg, _, rfl⟩ := hc
    exact (fails_evidence_false_iff people ht).mp (by
      rcases hfe : fails_evidence people ht
      · rfl
      · rw [hfe] at hcons; cases hcons)

theorem C3_witness : evidence_consistent popSolo [0] :=
  (C3_evidence_filter popSolo [0]).1.mp rfl

/-- C4: for positive accumulated sums, `normalize` divides each weight of
each of the two distributions by that distribution's own sum; each
normalized distribution sums to exactly 1 and relative proportions are
preserved; `normalize` acts person by person. -/
theorem C4_normalize_sums (d : Dist) (hg : 0 < geneSum d) (htr : 0 < traitSum d) :
    normalizePerson d =
      some ⟨d.gene0 / geneSum d, d.gene1 / geneSum d, d.gene2 / geneSum d,
        d.traitTrue / traitSum d, d.traitFalse / traitSum d⟩ ∧
    d.gene0 / geneSum d + d.gene1 / geneSum d + d.gene2 / geneSum d = 1 ∧
    d.traitTrue / traitSum d + d.traitFalse / traitSum d = 1 ∧
    (d.gene0 / geneSum d) * d.gene1 = (d.gene1 / geneSum d) * d.gene0 ∧
    (d.gene0 / geneSum d) * d.gene2 = (d.gene2 / geneSum d) * d.gene0 ∧
    (d.gene1 / geneSum d) * d.gene2 = (d.gene2 / geneSum d) * d.gene1 ∧
    (d.traitTrue / traitSum d) * d.traitFalse = (d.traitFalse / traitSum d) * d.traitTrue ∧
    ∀ (probs res : List (Name × Dist)), normalize probs = some res →
      List.Forall₂ (fun e e' : Name × Dist => e.1 = e'.1 ∧ normalizePerson e.2 = some e'.2)
        probs res := by
  refine ⟨normalizePerson_some_eq d (ne_of_gt hg) (ne_of_gt htr), ?_, ?_,
    by ring, by ring, by ring, by ring, fun probs res h => normalize_forall2 probs res h⟩
  · rw [div_add_div_same, div_add_div_same]
    exact div_self (ne_of_gt hg)
  · rw [div_add_div_same]
    exact div_self (ne_of_gt htr)

theorem C4_witness :
    normalizePerson ⟨1, 2, 3, 4, 5⟩ =
      some ⟨1 / geneSum ⟨1, 2, 3, 4, 5⟩, 2 / geneSum ⟨1, 2, 3, 4, 5⟩, 3 / geneSum ⟨1, 2, 3, 4, 5⟩,
        4 / traitSum ⟨1, 2, 3, 4, 5⟩, 5 / traitSum ⟨1, 2, 3, 4, 5⟩⟩ :=
  (C4_normalize_sums ⟨1, 2, 3, 4, 5⟩ (by norm_num [geneSum]) (by norm_num [traitSum])).1

/-- C5: one `update` call adds `p` to exactly one gene bucket (the one
selected by the configuration's gene assignment) and exactly one trait
bucket of every person, leaving all other buckets unchanged. -/
theorem C5_update_buckets (one_gene two_genes have_trait : List Name) (p : ℚ)
    (k : Name) (d : Dist) :
    (∀ g : Nat, g < 3 →
      (updatePerson one_gene two_genes have_trait p k d).geneW g =
        if g = geneOf one_gene two_genes k then d.geneW g + p else d.geneW g) ∧
    (∀ b : Bool,
      (updatePerson one_gene two_genes have_trait p k d).traitW b =
        if b = decide (k ∈ have_trait) then d.traitW b + p else d.traitW b) ∧
    ∀ probs : List (Name × Dist), ∀ e ∈ probs,
      (e.1, updatePerson one_gene two_genes have_trait p e.1 e.2) ∈
        update probs one_gene two_genes have_trait p := by
  refine ⟨?_, ?_, ?_⟩
  · intro g hgl
    interval_cases g <;>
      by_cases h1 : k ∈ one_gene <;> by_cases h2 : k ∈ two_genes <;>
        by_cases h3 : k ∈ have_trait <;>
          simp [updatePerson, geneOf, Dist.geneW, h1, h2, h3]
  · intro b
    rcases b <;>
      by_cases h1 : k ∈ one_gene <;> by_cases h2 : k ∈ two_genes <;>
        by_cases h3 : k ∈ have_trait <;>
          simp [updatePerson, geneOf, Dist.traitW, h1, h2, h3]
  · intro probs e he
    simp only [update]
    exact List.mem_map_of_mem _ he

theorem C5_witness :
    (updatePerson [0] [] [0] (1/2) 0 zeroDist).geneW 1 =
      if 1 = geneOf [0] [] 0 then zeroDist.geneW 1 + 1/2 else zeroDist.geneW 1 :=
  (C5_update_buckets [0] [] [0] (1/2) 0 zeroDist).1 1 (by norm_num)

/-- C6: `normalize` fails (divide-by-zero, modelled as `none`) exactly when
some person's accumulated weights sum to zero, and the failure propagates
through `infer` unhandled: no degenerate distribution is returned. -/
theorem C6_normalize_failure (probs : List (Name × Dist)) (people : People) :
    (normalize probs = none ↔ ∃ e ∈ probs, geneSum e.2 = 0 ∨ traitSum e.2 = 0) ∧
    (infer people = none ↔ ∃ e ∈ run_inference people, geneSum e.2 = 0 ∨ traitSum e.2 = 0) := by
  constructor <;> simp only [infer, normalize_eq_none_iff, normalizePerson_none_iff]

theorem C6_witness : normalize [(0, zeroDist)] = none :=
  (C6_normalize_failure [(0, zeroDist)] []).1.mpr
    ⟨(0, zeroDist), by simp, Or.inl (by norm_num [geneSum, zeroDist])⟩

/-! ## Accumulation algebra (C9, C10) -/

lemma Dist.add_assoc' (a b c : Dist) : (a.add b).add c = a.add (b.add c) := by
  simp [Dist.add, add_assoc]

lemma Dist.add_comm' (a b : Dist) : a.add b = b.add a := by
  simp [Dist.add, add_comm]

lemma Dist.add_zero' (d : Dist) : d.add zeroDist = d := by
  simp [Dist.add, zeroDist]

lemma Dist.zero_add' (d : Dist) : zeroDist.add d = d := by
  simp [Dist.add, zeroDist]

lemma updatePerson_as_add (og tg ht : List Name) (p : ℚ) (k : Name) (d : Dist) :
    updatePerson og tg ht p k d = d.add (deltaDist og tg ht p k) := by
  unfold updatePerson deltaDist updatePerson Dist.add zeroDist
  by_cases h1 : k ∈ og <;> by_cases h2 : k ∈ tg <;> by_cases h3 : k ∈ ht <;>
    simp [h1, h2, h3]

lemma updatePerson_comm (og1 tg1 ht1 : List Name) (p1 : ℚ) (og2 tg2 ht2 : List Name) (p2 : ℚ)
    (k : Name) (d : Dist) :
    updatePerson og2 tg2 ht2 p2 k (updatePerson og1 tg1 ht1 p1 k d) =
      updatePerson og1 tg1 ht1 p1 k (updatePerson og2 tg2 ht2 p2 k d) := by
  simp only [updatePerson_as_add, Dist.add_assoc']
  rw [Dist.add_comm' (deltaDist og1 tg1 ht1 p1 k) (deltaDist og2 tg2 ht2 p2 k)]

lemma update_comm (probs : List (Name × Dist)) (og1 tg1 ht1 : List Name) (p1 : ℚ)
    (og2 tg2 ht2 : List Name) (p2 : ℚ) :
    update (update probs og1 tg1 ht1 p1) og2 tg2 ht2 p2 =
      update (update probs og2 tg2 ht2 p2) og1 tg1 ht1 p1 := by
  simp only [update, List.map_map]
  congr 1
  funext e
  simp only [Function.comp]
  rw [updatePerson_comm]

lemma applyAll_perm {cfgs1 cfgs2 : List Config} (h : cfgs1.Perm cfgs2) :
    ∀ probs, applyAll probs cfgs1 = applyAll probs cfgs2 := by
  induction h with
  | nil => intro probs; rfl
  | cons x _ ih =>
      intro probs
      simp only [applyAll, List.foldl_cons]
      exact ih _
  | swap x y l =>
      intro probs
      simp only [applyAll, List.foldl_cons]
      rw [update_comm]
  | trans _ _ ih1 ih2 => intro probs; exact (ih1 probs).trans (ih2 probs)

lemma zipWith_map_same {α β γ δ : Type} (f : α → β) (g : α → γ) (h : β → γ → δ) :
    ∀ l : List α, List.zipWith h (l.map f) (l.map g) = l.map fun x => h (f x) (g x) := by
  intro l
  induction l with
  | nil => rfl
  | cons a l ih => simp [ih]

lemma applyAll_entrywise (probs : List (Name × Dist)) (cfgs : List Config) :
    applyAll probs cfgs =
      probs.map fun e =>
        (e.1, cfgs.foldl (fun d c => updatePerson c.1 c.2.1 c.2.2.1 c.2.2.2 e.1 d) e.2) := by
  unfold applyAll
  simp only [update]
  exact foldl_update_map (γ := Config)
    (fun c k d => updatePerson c.1 c.2.1 c.2.2.1 c.2.2.2 k d) cfgs probs

lemma foldPerson_cocycle (k : Name) :
    ∀ (cfgs : List Config) (d : Dist),
      cfgs.foldl (fun d c => updatePerson c.1 c.2.1 c.2.2.1 c.2.2.2 k d) d =
        d.add (cfgs.foldl (fun d c => updatePerson c.1 c.2.1 c.2.2.1 c.2.2.2 k d) zeroDist) := by
  intro cfgs
  induction cfgs with
  | nil => intro d; exact (Dist.add_zero' d).symm
  | cons c cs ih =>
      intro d
      simp only [List.foldl_cons]
      rw [ih (updatePerson c.1 c.2.1 c.2.2.1 c.2.2.2 k d),
          ih (updatePerson c.1 c.2.1 c.2.2.1 c.2.2.2 k zeroDist),
          updatePerson_as_add c.1 c.2.1 c.2.2.1 c.2.2.2 k d,
          updatePerson_as_add c.1 c.2.1 c.2.2.1 c.2.2.2 k zeroDist,
          Dist.zero_add', Dist.add_assoc']

lemma geneSum_updatePerson (og tg ht : List Name) (p : ℚ) (k : Name) (d : Dist) :
    geneSum (updatePerson og tg ht p k d) = geneSum d + p := by
  unfold geneSum updatePerson
  by_cases h1 : k ∈ og <;> by_cases h2 : k ∈ tg <;> by_cases h3 : k ∈ ht <;>
    simp [h1, h2, h3] <;> ring

lemma traitSum_updatePerson (og tg ht : List Name) (p : ℚ) (k : Name) (d : Dist) :
    traitSum (updatePerson og tg ht p k d) = traitSum d + p := by
  unfold traitSum updatePerson
  by_cases h1 : k ∈ og <;> by_cases h2 : k ∈ tg <;> by_cases h3 : k ∈ ht <;>
    simp [h1, h2, h3] <;> ring

lemma foldPerson_sums (k : Name) :
    ∀ (cfgs : List Config) (d : Dist),
      geneSum (cfgs.foldl (fun d c => updatePerson c.1 c.2.1 c.2.2.1 c.2.2.2 k d) d) =
        geneSum d + (cfgs.map fun c => c.2.2.2).sum ∧
      traitSum (cfgs.foldl (fun d c => updatePerson c.1 c.2.1 c.2.2.1 c.2.2.2 k d) d) =
        traitSum d + (cfgs.map fun c => c.2.2.2).sum := by
  intro cfgs
  induction cfgs with
  | nil => intro d; simp
  | cons c cs ih =>
      intro d
      simp only [List.foldl_cons, List.map_cons, List.sum_cons]
      rcases ih (updatePerson c.1 c.2.1 c.2.2.1 c.2.2.2 k d) with ⟨h1, h2⟩
      rw [h1, h2, geneSum_updatePerson, traitSum_updatePerson]
      constructor <;> ring

/-! ## Claim theorems C9, C10 -/

/-- C9: accumulation is a commutative reduction: the result of folding
`update` over a list of configurations is invariant under permutation, and
sharding the list and merging the shard accumulators by elementwise addition
gives the same result as one sequential pass. -/
theorem C9_commutative_reduction (people : People) (cfgs1 cfgs2 : List Config) :
    (cfgs1.Perm cfgs2 →
      applyAll (initProbs people) cfgs1 = applyAll (initProbs people) cfgs2) ∧
    applyAll (initProbs people) (cfgs1 ++ cfgs2) =
      mergeAccum (applyAll (initProbs people) cfgs1) (applyAll (initProbs people) cfgs2) := by
  constructor
  · intro h
    exact applyAll_perm h (initProbs people)
  · simp only [applyAll_entrywise, initProbs, List.map_map, mergeAccum]
    rw [zipWith_map_same]
    congr 1
    funext p
    simp only [Function.comp]
    refine congrArg (Prod.mk p.1) ?_
    rw [List.foldl_append, foldPerson_cocycle p.1 cfgs2]

theorem C9_witness :
    applyAll (initProbs popSolo) [([], [], [0], (1/2 : ℚ)), ([0], [], [], (1/3 : ℚ))] =
      applyAll (initProbs popSolo) [([0], [], [], (1/3 : ℚ)), ([], [], [0], (1/2 : ℚ))] :=
  (C9_commutative_reduction popSolo
    [([], [], [0], (1/2 : ℚ)), ([0], [], [], (1/3 : ℚ))]
    [([0], [], [], (1/3 : ℚ)), ([], [], [0], (1/2 : ℚ))]).1
    (List.Perm.swap _ _ _)

/-- C10: starting from the all-zero accumulators, after any sequence of
`update` calls every person's three gene buckets and two trait buckets each
sum to the total of all probabilities accumulated so far — the same total
for every person. -/
theorem C10_accumulated_totals (people : People) (cfgs : List Config) :
    ∀ e ∈ applyAll (initProbs people) cfgs,
      geneSum e.2 = (cfgs.map fun c => c.2.2.2).sum ∧
      traitSum e.2 = (cfgs.map fun c => c.2.2.2).sum := by
  intro e he
  rw [applyAll_entrywise] at he
  simp only [initProbs, List.map_map, List.mem_map, Function.comp] at he
  obtain ⟨p, _, rfl⟩ := he
  have h := foldPerson_sums p.1 cfgs zeroDist
  have hg0 : geneSum zeroDist = 0 := by norm_num [geneSum, zeroDist]
  have ht0 : traitSum zeroDist = 0 := by norm_num [traitSum, zeroDist]
  rw [hg0, ht0, zero_add] at h
  exact h

theorem C10_witness :
    geneSum (updatePerson [] [] [0] (1/2) 0 zeroDist) =
      (([([], [], [0], (1/2 : ℚ))] : List Config).map fun c => c.2.2.2).sum ∧
    traitSum (updatePerson [] [] [0] (1/2) 0 zeroDist) =
      (([([], [], [0], (1/2 : ℚ))] : List Config).map fun c => c.2.2.2).sum :=
  C10_accumulated_totals popSolo ([([], [], [0], (1/2 : ℚ))] : List Config)
    (0, updatePerson [] [] [0] (1/2) 0 zeroDist)
    (by simp [applyAll, update, initProbs, popSolo])

/-! ## Full-pipeline entry lemmas -/

lemma forall2_mem_right {α β : Type} {R : α → β → Prop} :
    ∀ {l : List α} {r : List β}, List.Forall₂ R l r → ∀ {b}, b ∈ r → ∃ a ∈ l, R a b := by
  intro l r h
  induction h with
  | nil => intro b hb; cases hb
  | cons hR _ ih =>
      intro b hb
      rcases List.mem_cons.mp hb with rfl | hb'
      · exact ⟨_, List.mem_cons_self _ _, hR⟩
      · rcases ih hb' with ⟨a, ha, hab⟩
        exact ⟨a, List.mem_cons_of_mem _ ha, hab⟩

/-- An entry of the final result is the normalization of that person's
accumulated distribution. -/
lemma res_entry (people : People) {res : List (Name × Dist)}
    (h : infer people = some res) {n : Name} {d : Dist} (hm : (n, d) ∈ res) :
    normalizePerson (accumDist people n) = some d := by
  unfold infer at h
  have h2 := normalize_forall2 _ _ h
  obtain ⟨a, ha, hfst, hnp⟩ := forall2_mem_right h2 hm
  rw [run_inference_entrywise] at ha
  obtain ⟨p, _, rfl⟩ := List.mem_map.mp ha
  simp only at hfst
  rw [hfst] at hnp
  exact hnp

lemma cfgTriples_fails_false (people : People) :
    ∀ c ∈ cfgTriples people, fails_evidence people c.2.2 = false := by
  intro c hc
  simp only [cfgTriples, List.mem_flatMap, List.mem_filter, List.mem_map] at hc
  obtain ⟨ht, ⟨_, hcons⟩, og, _, tg, _, rfl⟩ := hc
  rcases hfe : fails_evidence people ht
  · rfl
  · rw [hfe] at hcons; cases hcons

lemma mem_ht_of_trait_true {people : People} {n : Name} {inf : PersonInfo}
    (hmem : (n, inf) ∈ people) (htr : inf.trait = some true)
    {ht : List Name} (hfe : fails_evidence people ht = false) : n ∈ ht := by
  have hc := (fails_evidence_false_iff people ht).mp hfe
  have := hc (n, inf) hmem true htr
  exact this.mpr rfl

lemma updatePerson_traitFalse_mem (og tg ht : List Name) (p : ℚ) (k : Name) (d : Dist)
    (h : k ∈ ht) : (updatePerson og tg ht p k d).traitFalse = d.traitFalse := by
  unfold updatePerson
  by_cases h1 : k ∈ og <;> by_cases h2 : k ∈ tg <;> simp [h1, h2, h]

lemma accum_traitFalse_zero (people : People) {n : Name} {inf : PersonInfo}
    (hmem : (n, inf) ∈ people) (htr : inf.trait = some true) :
    (accumDist people n).traitFalse = 0 := by
  unfold accumDist
  have hall := cfgTriples_fails_false people
  have : ∀ (L : List (List Name × List Name × List Name)),
      (∀ c ∈ L, fails_evidence people c.2.2 = false) → ∀ d : Dist,
      (L.foldl
        (fun d c => updatePerson c.1 c.2.1 c.2.2 (joint_probability people c.1 c.2.1 c.2.2) n d)
        d).traitFalse = d.traitFalse := by
    intro L
    induction L with
    | nil => intro _ d; rfl
    | cons c cs ih =>
        intro hL d
        rw [List.foldl_cons, ih (fun c hc => hL c (List.mem_cons_of_mem _ hc)),
          updatePerson_traitFalse_mem]
        exact mem_ht_of_trait_true hmem htr (hL c (List.mem_cons_self _ _))
  rw [this (cfgTriples people) hall zeroDist]
  rfl

/-! ## Claim theorem C7 -/

/-- C7: for a person observed to have the trait, the false trait bucket
never receives weight, and after the full run the posterior trait
distribution is exactly 1 on `true` and 0 on `false`. -/
theorem C7_observed_trait_posterior (people : People) (n : Name) (inf : PersonInfo)
    (hmem : (n, inf) ∈ people) (htr : inf.trait = some true)
    (res : List (Name × Dist)) (hres : infer people = some res) :
    (accumDist people n).traitFalse = 0 ∧
    ∀ d, (n, d) ∈ res → d.traitTrue = 1 ∧ d.traitFalse = 0 := by
  have hF : (accumDist people n).traitFalse = 0 := accum_traitFalse_zero people hmem htr
  refine ⟨hF, ?_⟩
  intro d hd
  obtain ⟨_, hts, hd'⟩ := normalizePerson_some_inv (res_entry people hres hd)
  have htt : traitSum (accumDist people n) = (accumDist people n).traitTrue := by
    rw [traitSum, hF, add_zero]
  subst hd'
  constructor
  · show (accumDist people n).traitTrue / traitSum (accumDist people n) = 1
    rw [htt]
    exact div_self (htt ▸ hts)
  · show (accumDist people n).traitFalse / traitSum (accumDist people n) = 0
    rw [hF, zero_div]

/-! ## Concrete evaluation helpers -/

lemma div_div_div_same (a S D : ℚ) (hD : D ≠ 0) (hS : S ≠ 0) : a / D / (S / D) = a / S := by
  field_simp

lemma normalizePerson_scale (dN : DistN) (D : ℚ) (hD : 0 < D)
    (hg : (dN.g0 + dN.g1 + dN.g2 : ℕ) ≠ 0) (htr : (dN.tT + dN.tF : ℕ) ≠ 0) :
    normalizePerson (scaleDist D dN) =
      some ⟨(dN.g0 : ℚ) / ((dN.g0 + dN.g1 + dN.g2 : ℕ) : ℚ),
        (dN.g1 : ℚ) / ((dN.g0 + dN.g1 + dN.g2 : ℕ) : ℚ),
        (dN.g2 : ℚ) / ((dN.g0 + dN.g1 + dN.g2 : ℕ) : ℚ),
        (dN.tT : ℚ) / ((dN.tT + dN.tF : ℕ) : ℚ),
        (dN.tF : ℚ) / ((dN.tT + dN.tF : ℕ) : ℚ)⟩ := by
  have hD' : D ≠ 0 := ne_of_gt hD
  have hgq : ((dN.g0 + dN.g1 + dN.g2 : ℕ) : ℚ) ≠ 0 := Nat.cast_ne_zero.mpr hg
  have htq : ((dN.tT + dN.tF : ℕ) : ℚ) ≠ 0 := Nat.cast_ne_zero.mpr htr
  have hgS : geneSum (scaleDist D dN) = ((dN.g0 + dN.g1 + dN.g2 : ℕ) : ℚ) / D := by
    rw [geneSum, scaleDist]
    push_cast
    rw [div_add_div_same, div_add_div_same]
  have htS : traitSum (scaleDist D dN) = ((dN.tT + dN.tF : ℕ) : ℚ) / D := by
    rw [traitSum, scaleDist]
    push_cast
    rw [div_add_div_same]
  rw [normalizePerson_some_eq _ (by rw [hgS]; exact div_ne_zero hgq hD')
    (by rw [htS]; exact div_ne_zero htq hD'), hgS, htS]
  refine congrArg some ?_
  simp only [scaleDist]
  simp only [Dist.mk.injEq]
  exact ⟨div_div_div_same _ _ _ hD' hgq, div_div_div_same _ _ _ hD' hgq,
    div_div_div_same _ _ _ hD' hgq, div_div_div_same _ _ _ hD' htq,
    div_div_div_same _ _ _ hD' htq⟩

lemma infer_popSolo : infer popSolo = some [(0, ⟨96/329, 24/47, 65/329, 1, 0⟩)] := by
  unfold infer
  rw [run_inference_entrywise]
  rw [show popSolo.map (fun p => (p.1, accumDist popSolo p.1)) = [(0, accumDist popSolo 0)]
    from rfl]
  rw [accumDist_eq_scale]
  rw [show accumDistN popSolo 0 = ⟨9600, 16800, 6500, 32900, 0⟩ from by decide]
  rw [show popSolo.length = 1 from rfl]
  simp only [normalize]
  rw [normalizePerson_scale _ _ (by positivity) (by norm_num) (by norm_num)]
  norm_num

theorem C7_witness :
    ((⟨96/329, 24/47, 65/329, 1, 0⟩ : Dist)).traitTrue = 1 ∧
    ((⟨96/329, 24/47, 65/329, 1, 0⟩ : Dist)).traitFalse = 0 :=
  (C7_observed_trait_posterior popSolo 0 ⟨none, none, some true⟩ (by simp [popSolo]) rfl
    [(0, ⟨96/329, 24/47, 65/329, 1, 0⟩)] infer_popSolo).2
    ⟨96/329, 24/47, 65/329, 1, 0⟩ (by simp)

set_option maxRecDepth 4000 in
/-- The claim of C8 fails as stated: in `popFam`, person 0 has no parents
and no observed trait, yet their posterior gene distribution is not the
prior (the child's observed trait informs the founder's genes). -/
theorem C8_counterexample :
    (0, (⟨none, none, none⟩ : PersonInfo)) ∈ popFam ∧
    ((infer popFam).bind fun l => lookupDist l 0).map Dist.gene0 ≠ some (96/100) := by
  constructor
  · simp [popFam]
  · rw [infer, run_inference_entrywise]
    rw [show popFam.map (fun p => (p.1, accumDist popFam p.1)) =
        [(0, accumDist popFam 0), (1, accumDist popFam 1), (2, accumDist popFam 2)] from rfl]
    rw [accumDist_eq_scale popFam 0, accumDist_eq_scale popFam 1, accumDist_eq_scale popFam 2]
    rw [show accumDistN popFam 0 = dN0fam from by decide,
        show accumDistN popFam 1 = dN0fam from by decide,
        show accumDistN popFam 2 = dN2fam from by decide,
        show popFam.length = 3 from rfl]
    simp only [normalize]
    rw [normalizePerson_scale dN0fam _ (by positivity) (by norm_num [dN0fam])
        (by norm_num [dN0fam]),
      normalizePerson_scale dN2fam _ (by positivity) (by norm_num [dN2fam])
        (by norm_num [dN2fam])]
    simp only [Option.bind, lookupDist, List.find?, Option.map]
    norm_num [dN0fam]

/-! ## List-sum helpers for the marginalization argument (C8) -/

lemma sum_map_congr {α : Type} {f g : α → ℚ} {L : List α} (h : ∀ x ∈ L, f x = g x) :
    (L.map f).sum = (L.map g).sum := by
  rw [List.map_congr_left h]

lemma sum_map_add {α : Type} (f g : α → ℚ) :
    ∀ L : List α, (L.map fun x => f x + g x).sum = (L.map f).sum + (L.map g).sum := by
  intro L
  induction L with
  | nil => simp
  | cons x L ih => simp only [List.map_cons, List.sum_cons, ih]; ring

lemma sum_map_mul_left {α : Type} (c : ℚ) (f : α → ℚ) :
    ∀ L : List α, (L.map fun x => c * f x).sum = c * (L.map f).sum := by
  intro L
  induction L with
  | nil => simp
  | cons x L ih => simp only [List.map_cons, List.sum_cons, ih]; ring

lemma sum_map_flatMap {α γ : Type} (g : α → List γ) (F : γ → ℚ) :
    ∀ L : List α, ((L.flatMap g).map F).sum = (L.map fun x => ((g x).map F).sum).sum := by
  intro L
  induction L with
  | nil => rfl
  | cons x L ih => simp [List.flatMap_cons, List.map_append, List.sum_append, ih]

lemma sum_filter_ite {α : Type} (q : α → Bool) (F : α → ℚ) :
    ∀ L : List α, ((L.filter q).map F).sum = (L.map fun x => if q x then F x else 0).sum := by
  intro L
  induction L with
  | nil => rfl
  | cons x L ih =>
      rcases hq : q x
      · simp [List.filter_cons, hq, ih]
      · simp [List.filter_cons, hq, ih]

lemma mem_of_mem_powerset {s : List Name} :
    ∀ {l : List Name}, s ∈ powerset l → ∀ x ∈ s, x ∈ l := by
  intro l
  induction l generalizing s with
  | nil =>
      intro hs
      simp only [powerset, List.mem_singleton] at hs
      subst hs
      intro x hx
      cases hx
  | cons a rest ih =>
      intro hs x hx
      simp only [powerset, List.mem_append, List.mem_map] at hs
      rcases hs with hs | ⟨t, ht, rfl⟩
      · exact List.mem_cons_of_mem _ (ih hs x hx)
      · rcases List.mem_cons.mp hx with rfl | hx'
        · exact List.mem_cons_self _ _
        · exact List.mem_cons_of_mem _ (ih ht x hx')

lemma sum_map_map {α β : Type} (g : α → β) (F : β → ℚ) (L : List α) :
    ((L.map g).map F).sum = (L.map fun x => F (g x)).sum := by
  rw [List.map_map]
  rfl

lemma sum_powerset_perm (F : List Name → ℚ) (hF : ∀ s t, memEq s t → F s = F t) :
    ∀ {l l' : List Name}, l.Perm l' →
      ((powerset l).map F).sum = ((powerset l').map F).sum := by
  intro l l' h
  induction h generalizing F with
  | nil => rfl
  | @cons a l1 l2 _ ih =>
      simp only [powerset, List.map_append, List.sum_append, sum_map_map]
      rw [ih F hF, ih (fun s => F (a :: s)) fun s t hst =>
        hF (a :: s) (a :: t) fun x => by rw [List.mem_cons, List.mem_cons, hst x]]
  | @swap a b l =>
      simp only [powerset, List.map_append, List.sum_append, sum_map_map]
      have hswap : (((powerset l).map fun s => F (a :: b :: s)).sum =
          ((powerset l).map fun s => F (b :: a :: s)).sum) :=
        sum_map_congr fun s _ => hF _ _ fun x => by
          simp only [List.mem_cons]
          tauto
      rw [hswap]
      ring
  | trans _ _ ih1 ih2 => rw [ih1 F hF, ih2 F hF]

lemma sum_powerset_peel (F : List Name → ℚ) (hF : ∀ s t, memEq s t → F s = F t)
    {l : List Name} {n : Name} (hn : n ∈ l) :
    ((powerset l).map F).sum =
      ((powerset (l.erase n)).map fun s => F s + F (n :: s)).sum := by
  rw [sum_powerset_perm F hF (List.perm_cons_erase hn)]
  simp only [powerset, List.map_append, List.sum_append, sum_map_map]
  exact (sum_map_add F (fun s => F (n :: s)) (powerset (l.erase n))).symm

/-! ## Congruence lemmas: factors depend on sets only through membership -/

lemma gene_prob_noparents (og tg : List Name) (k : Name) {inf : PersonInfo}
    (hm : inf.mother = none) (hf : inf.father = none) :
    gene_prob og tg k inf = PROBS_gene (geneOf og tg k) := by
  unfold gene_prob
  rw [hm, hf]

lemma gene_prob_mixed1 (og tg : List Name) (k : Name) {inf : PersonInfo} {mo : Name}
    (hm : inf.mother = some mo) (hf : inf.father = none) :
    gene_prob og tg k inf = 0 := by
  unfold gene_prob
  rw [hm, hf]

lemma gene_prob_mixed2 (og tg : List Name) (k : Name) {inf : PersonInfo} {fa : Name}
    (hm : inf.mother = none) (hf : inf.father = some fa) :
    gene_prob og tg k inf = 0 := by
  unfold gene_prob
  rw [hm, hf]

lemma gene_prob_parents (og tg : List Name) (k : Name) {inf : PersonInfo} {mo fa : Name}
    (hm : inf.mother = some mo) (hf : inf.father = some fa) :
    gene_prob og tg k inf =
      (let mom_pass := pass_prob (geneOf og tg mo)
       let dad_pass := pass_prob (geneOf og tg fa)
       if geneOf og tg k = 0 then (1 - mom_pass) * (1 - dad_pass)
       else if geneOf og tg k = 1 then mom_pass * (1 - dad_pass) + (1 - mom_pass) * dad_pass
       else mom_pass * dad_pass) := by
  unfold gene_prob
  rw [hm, hf]

lemma geneOf_congr_full {og og' tg tg' : List Name} (h1 : memEq og og') (h2 : memEq tg tg')
    (k : Name) : geneOf og tg k = geneOf og' tg' k := by
  unfold geneOf
  rw [if_congr (h1 k) rfl (if_congr (h2 k) rfl rfl)]

lemma person_factor_congr_full {og og' tg tg' ht ht' : List Name}
    (h1 : memEq og og') (h2 : memEq tg tg') (h3 : memEq ht ht')
    (k : Name) (inf : PersonInfo) :
    person_factor og tg ht k inf = person_factor og' tg' ht' k inf := by
  have hg := geneOf_congr_full h1 h2 k
  have hd : decide (k ∈ ht) = decide (k ∈ ht') := decide_eq_decide.mpr (h3 k)
  unfold person_factor
  rw [hg, hd]
  congr 1
  rcases hmo : inf.mother with _ | mo <;> rcases hfa : inf.father with _ | fa
  · rw [gene_prob_noparents og tg k hmo hfa, gene_prob_noparents og' tg' k hmo hfa, hg]
  · rw [gene_prob_mixed2 og tg k hmo hfa, gene_prob_mixed2 og' tg' k hmo hfa]
  · rw [gene_prob_mixed1 og tg k hmo hfa, gene_prob_mixed1 og' tg' k hmo hfa]
  · rw [gene_prob_parents og tg k hmo hfa, gene_prob_parents og' tg' k hmo hfa]
    simp only [geneOf_congr_full h1 h2 mo, geneOf_congr_full h1 h2 fa, hg]

lemma joint_probability_congr_full (people : People) {og og' tg tg' ht ht' : List Name}
    (h1 : memEq og og') (h2 : memEq tg tg') (h3 : memEq ht ht') :
    joint_probability people og tg ht = joint_probability people og' tg' ht' := by
  rw [joint_probability_eq_prod, joint_probability_eq_prod]
  exact congrArg List.prod
    (List.map_congr_left fun p _ => person_factor_congr_full h1 h2 h3 p.1 p.2)

lemma any_congr_mem {α : Type} (p q : α → Bool) :
    ∀ l : List α, (∀ x ∈ l, p x = q x) → l.any p = l.any q := by
  intro l
  induction l with
  | nil => intro _; rfl
  | cons x l ih =>
      intro h
      simp only [List.any_cons, h x (List.mem_cons_self _ _),
        ih fun y hy => h y (List.mem_cons_of_mem _ hy)]

lemma fails_evidence_congr_full (people : People) {ht ht' : List Name} (h : memEq ht ht') :
    fails_evidence people ht = fails_evidence people ht' := by
  unfold fails_evidence
  apply any_congr_mem
  intro p _
  rcases p.2.trait with _ | t
  · rfl
  · simp only [decide_eq_decide.mpr (h p.1)]

lemma geneOf_congr_off {n : Name} {og og' tg tg' : List Name}
    (h1 : memEqOff n og og') (h2 : memEqOff n tg tg') {k : Name} (hk : k ≠ n) :
    geneOf og tg k = geneOf og' tg' k := by
  unfold geneOf
  rw [if_congr (h1 k hk) rfl (if_congr (h2 k hk) rfl rfl)]

lemma person_factor_congr_off {n : Name} {og og' tg tg' ht ht' : List Name}
    (h1 : memEqOff n og og') (h2 : memEqOff n tg tg') (h3 : memEqOff n ht ht')
    {k : Name} (hk : k ≠ n) {inf : PersonInfo}
    (hm : inf.mother ≠ some n) (hf : inf.father ≠ some n) :
    person_factor og tg ht k inf = person_factor og' tg' ht' k inf := by
  have hg := geneOf_congr_off h1 h2 hk
  have hd : decide (k ∈ ht) = decide (k ∈ ht') := decide_eq_decide.mpr (h3 k hk)
  unfold person_factor
  rw [hg, hd]
  congr 1
  rcases hmo : inf.mother with _ | mo <;> rcases hfa : inf.father with _ | fa
  · rw [gene_prob_noparents og tg k hmo hfa, gene_prob_noparents og' tg' k hmo hfa, hg]
  · rw [gene_prob_mixed2 og tg k hmo hfa, gene_prob_mixed2 og' tg' k hmo hfa]
  · rw [gene_prob_mixed1 og tg k hmo hfa, gene_prob_mixed1 og' tg' k hmo hfa]
  · have hmo' : mo ≠ n := fun h => hm (by rw [hmo, h])
    have hfa' : fa ≠ n := fun h => hf (by rw [hfa, h])
    rw [gene_prob_parents og tg k hmo hfa, gene_prob_parents og' tg' k hmo hfa]
    simp only [geneOf_congr_off h1 h2 hmo', geneOf_congr_off h1 h2 hfa', hg]

lemma nodup_key_eq {people : People} :
    (people.map Prod.fst).Nodup → ∀ {n : Name} {inf : PersonInfo}, (n, inf) ∈ people →
      ∀ e ∈ people, e.1 = n → e = (n, inf) := by
  induction people with
  | nil => intro _ n inf hmem; cases hmem
  | cons p ps ih =>
      intro hnd n inf hmem e he hfst
      rw [List.map_cons, List.nodup_cons] at hnd
      rcases List.mem_cons.mp he with rfl | he'
      · rcases List.mem_cons.mp hmem with heq | hmem'
        · exact heq.symm
        · exfalso
          apply hnd.1
          rw [hfst]
          exact List.mem_map_of_mem Prod.fst hmem'
      · rcases List.mem_cons.mp hmem with heq | hmem'
        · exfalso
          apply hnd.1
          rw [← heq]
          show n ∈ ps.map Prod.fst
          rw [← hfst]
          exact List.mem_map_of_mem Prod.fst he'
        · exact ih hnd.2 hmem' e he' hfst

lemma fails_evidence_congr_off {people : People} {n : Name} {inf : PersonInfo}
    (hnd : (people.map Prod.fst).Nodup) (hmem : (n, inf) ∈ people) (htr : inf.trait = none)
    {ht ht' : List Name} (h : memEqOff n ht ht') :
    fails_evidence people ht = fails_evidence people ht' := by
  unfold fails_evidence
  apply any_congr_mem
  intro p hp
  by_cases hpn : p.1 = n
  · have := nodup_key_eq hnd hmem p hp hpn
    rw [this]
    simp only [htr]
  · rcases p.2.trait with _ | t
    · rfl
    · simp only [decide_eq_decide.mpr (h p.1 hpn)]

/-! ## Bucket formulas for `accumDist` -/

lemma updatePerson_gene0 (og tg ht : List Name) (p : ℚ) (k : Name) (d : Dist) :
    (updatePerson og tg ht p k d).gene0 =
      d.gene0 + (if geneOf og tg k = 0 then p else 0) := by
  unfold updatePerson geneOf
  by_cases h1 : k ∈ og <;> by_cases h2 : k ∈ tg <;> by_cases h3 : k ∈ ht <;>
    simp [h1, h2, h3]

lemma updatePerson_gene1 (og tg ht : List Name) (p : ℚ) (k : Name) (d : Dist) :
    (updatePerson og tg ht p k d).gene1 =
      d.gene1 + (if geneOf og tg k = 1 then p else 0) := by
  unfold updatePerson geneOf
  by_cases h1 : k ∈ og <;> by_cases h2 : k ∈ tg <;> by_cases h3 : k ∈ ht <;>
    simp [h1, h2, h3]

lemma updatePerson_gene2 (og tg ht : List Name) (p : ℚ) (k : Name) (d : Dist) :
    (updatePerson og tg ht p k d).gene2 =
      d.gene2 + (if geneOf og tg k = 2 then p else 0) := by
  unfold updatePerson geneOf
  by_cases h1 : k ∈ og <;> by_cases h2 : k ∈ tg <;> by_cases h3 : k ∈ ht <;>
    simp [h1, h2, h3]

lemma foldl_accum_proj {γ : Type} (proj : Dist → ℚ) (step : γ → Dist → Dist)
    (contrib : γ → ℚ) (hstep : ∀ c d, proj (step c d) = proj d + contrib c) :
    ∀ (L : List γ) (d : Dist),
      proj (L.foldl (fun d c => step c d) d) = proj d + (L.map contrib).sum := by
  intro L
  induction L with
  | nil => intro d; simp
  | cons c cs ih =>
      intro d
      simp only [List.foldl_cons, List.map_cons, List.sum_cons, ih, hstep]
      ring

lemma accumDist_gene0 (people : People) (k : Name) :
    (accumDist people k).gene0 =
      ((cfgTriples people).map fun c =>
        if geneOf c.1 c.2.1 k = 0 then joint_probability people c.1 c.2.1 c.2.2 else 0).sum := by
  unfold accumDist
  have h := foldl_accum_proj Dist.gene0
    (fun c => updatePerson c.1 c.2.1 c.2.2 (joint_probability people c.1 c.2.1 c.2.2) k)
    (fun c =>
      if geneOf c.1 c.2.1 k = 0 then joint_probability people c.1 c.2.1 c.2.2 else 0)
    (fun c d => updatePerson_gene0 c.1 c.2.1 c.2.2 _ k d)
    (cfgTriples people) zeroDist
  simpa [zeroDist] using h

lemma accumDist_gene1 (people : People) (k : Name) :
    (accumDist people k).gene1 =
      ((cfgTriples people).map fun c =>
        if geneOf c.1 c.2.1 k = 1 then joint_probability people c.1 c.2.1 c.2.2 else 0).sum := by
  unfold accumDist
  have h := foldl_accum_proj Dist.gene1
    (fun c => updatePerson c.1 c.2.1 c.2.2 (joint_probability people c.1 c.2.1 c.2.2) k)
    (fun c =>
      if geneOf c.1 c.2.1 k = 1 then joint_probability people c.1 c.2.1 c.2.2 else 0)
    (fun c d => updatePerson_gene1 c.1 c.2.1 c.2.2 _ k d)
    (cfgTriples people) zeroDist
  simpa [zeroDist] using h

lemma accumDist_gene2 (people : People) (k : Name) :
    (accumDist people k).gene2 =
      ((cfgTriples people).map fun c =>
        if geneOf c.1 c.2.1 k = 2 then joint_probability people c.1 c.2.1 c.2.2 else 0).sum := by
  unfold accumDist
  have h := foldl_accum_proj Dist.gene2
    (fun c => updatePerson c.1 c.2.1 c.2.2 (joint_probability people c.1 c.2.1 c.2.2) k)
    (fun c =>
      if geneOf c.1 c.2.1 k = 2 then joint_probability people c.1 c.2.1 c.2.2 else 0)
    (fun c d => updatePerson_gene2 c.1 c.2.1 c.2.2 _ k d)
    (cfgTriples people) zeroDist
  simpa [zeroDist] using h

/-! ## Marginalizing out an isolated founder (C8) -/

lemma filter_erase_comm {N : List Name} (hnd : N.Nodup) (p : Name → Bool) (n : Name) :
    (N.filter p).erase n = (N.erase n).filter p := by
  rw [(hnd.filter p).erase_eq_filter, hnd.erase_eq_filter, List.filter_filter,
    List.filter_filter]
  apply List.filter_congr
  intro x _
  exact Bool.and_comm _ _

lemma filter_not_mem_cons {N : List Name} (hnd : N.Nodup) (n : Name) (og : List Name) :
    (N.filter fun x => decide (x ∉ n :: og)) = (N.erase n).filter fun x => decide (x ∉ og) := by
  rw [hnd.erase_eq_filter, List.filter_filter]
  apply List.filter_congr
  intro x _
  by_cases h1 : x = n <;> by_cases h2 : x ∈ og <;> simp [h1, h2]

lemma rest_congr (l : People) {n : Name}
    (hk : ∀ p ∈ l, p.1 ≠ n) (hpar : ∀ p ∈ l, p.2.mother ≠ some n ∧ p.2.father ≠ some n)
    {og og' tg tg' ht ht' : List Name}
    (h1 : memEqOff n og og') (h2 : memEqOff n tg tg') (h3 : memEqOff n ht ht') :
    (l.map fun p => person_factor og tg ht p.1 p.2).prod =
      (l.map fun p => person_factor og' tg' ht' p.1 p.2).prod := by
  refine congrArg List.prod (List.map_congr_left fun p hp => ?_)
  exact person_factor_congr_off h1 h2 h3 (hk p hp) (hpar p hp).1 (hpar p hp).2

lemma names_ne_split {l1 l2 : People} {n : Name} {inf : PersonInfo}
    (hnd : ((l1 ++ (n, inf) :: l2).map Prod.fst).Nodup) :
    (∀ p ∈ l1, p.1 ≠ n) ∧ ∀ p ∈ l2, p.1 ≠ n := by
  rw [List.map_append, List.map_cons, List.nodup_append] at hnd
  obtain ⟨h1, h2, hdisj⟩ := hnd
  rw [List.nodup_cons] at h2
  constructor
  · intro p hp hpn
    apply hdisj (a := p.1) (List.mem_map_of_mem Prod.fst hp)
    rw [hpn]
    exact List.mem_cons_self _ _
  · intro p hp hpn
    exact h2.1 (List.mem_map.mpr ⟨p, hp, hpn⟩)

lemma bucket_sum_isolated (people : People) (n : Name) (l1 l2 : People)
    (hpe : people = l1 ++ (n, ⟨none, none, none⟩) :: l2)
    (hnd : (people.map Prod.fst).Nodup)
    (hpar : ∀ p ∈ people, p.2.mother ≠ some n ∧ p.2.father ≠ some n)
    (g : Nat) (hg : g = 0 ∨ g = 1 ∨ g = 2) :
    ((cfgTriples people).map fun c =>
        if geneOf c.1 c.2.1 n = g then joint_probability people c.1 c.2.1 c.2.2 else 0).sum =
      PROBS_gene g *
        ((powerset ((people.map Prod.fst).erase n)).map fun ht =>
          if fails_evidence people ht then 0
          else ((powerset ((people.map Prod.fst).erase n)).map fun og =>
            ((powerset (((people.map Prod.fst).erase n).filter
                fun x => decide (x ∉ og))).map fun tg =>
              (l1.map fun p => person_factor og tg ht p.1 p.2).prod *
                (l2.map fun p => person_factor og tg ht p.1 p.2).prod).sum).sum).sum := by
  have hmem : (n, (⟨none, none, none⟩ : PersonInfo)) ∈ people := by
    rw [hpe]
    exact List.mem_append_right _ (List.mem_cons_self _ _)
  have hnN : n ∈ people.map Prod.fst := List.mem_map_of_mem Prod.fst hmem
  have hndN : (people.map Prod.fst).Nodup := hnd
  have hnE : n ∉ (people.map Prod.fst).erase n := by
    rw [hndN.erase_eq_filter]
    simp
  have hnd' := hnd
  rw [hpe] at hnd'
  obtain ⟨hl1, hl2⟩ := names_ne_split hnd'
  have hl1p : ∀ p ∈ l1, p.2.mother ≠ some n ∧ p.2.father ≠ some n := fun p hp =>
    hpar p (by rw [hpe]; exact List.mem_append_left _ hp)
  have hl2p : ∀ p ∈ l2, p.2.mother ≠ some n ∧ p.2.father ≠ some n := fun p hp =>
    hpar p (by rw [hpe]; exact List.mem_append_right _ (List.mem_cons_of_mem _ hp))
  set N := people.map Prod.fst with hNdef
  set E := N.erase n with hEdef
  set Rest : List Name → List Name → List Name → ℚ := fun og tg ht =>
    (l1.map fun p => person_factor og tg ht p.1 p.2).prod *
      (l2.map fun p => person_factor og tg ht p.1 p.2).prod with hRest
  have hnE' : ∀ {s : List Name}, s ∈ powerset E → n ∉ s := fun {s} hs hns =>
    hnE (mem_of_mem_powerset hs n hns)
  have hJ : ∀ og tg ht, joint_probability people og tg ht =
      PROBS_gene (geneOf og tg n) * PROBS_trait (geneOf og tg n) (decide (n ∈ ht)) *
        Rest og tg ht := by
    intro og tg ht
    conv_lhs => rw [hpe]
    rw [joint_probability_eq_prod, List.map_append, List.prod_append, List.map_cons,
      List.prod_cons]
    have hf : person_factor og tg ht n ⟨none, none, none⟩ =
        PROBS_gene (geneOf og tg n) * PROBS_trait (geneOf og tg n) (decide (n ∈ ht)) := by
      unfold person_factor
      rw [gene_prob_noparents og tg n rfl rfl]
    rw [hf]
    simp only [hRest]
    ring
  have hRc : ∀ {og og' tg tg' ht ht' : List Name}, memEqOff n og og' → memEqOff n tg tg' →
      memEqOff n ht ht' → Rest og tg ht = Rest og' tg' ht' := by
    intro og og' tg tg' ht ht' h1 h2 h3
    simp only [hRest]
    rw [rest_congr l1 hl1 hl1p h1 h2 h3, rest_congr l2 hl2 hl2p h1 h2 h3]
  have hfeOff : ∀ {ht ht' : List Name}, memEqOff n ht ht' →
      fails_evidence people ht = fails_evidence people ht' :=
    fun h => fails_evidence_congr_off hnd hmem rfl h
  have hnest :
      ((cfgTriples people).map fun c =>
        if geneOf c.1 c.2.1 n = g then joint_probability people c.1 c.2.1 c.2.2 else 0).sum =
      ((powerset N).map fun ht =>
        if fails_evidence people ht then 0
        else ((powerset N).map fun og =>
          ((powerset (N.filter fun x => decide (x ∉ og))).map fun tg =>
            if geneOf og tg n = g then joint_probability people og tg ht else 0).sum).sum).sum := by
    simp only [cfgTriples]
    rw [sum_map_flatMap, sum_filter_ite]
    refine sum_map_congr fun ht _ => ?_
    rcases hq : fails_evidence people ht
    · rw [if_pos (show (!false) = true from rfl), if_neg (show ¬false = true by simp)]
      rw [sum_map_flatMap]
      refine sum_map_congr fun og _ => ?_
      rw [sum_map_map]
    · rw [if_neg (show ¬(!true) = true by simp), if_pos rfl]
  have inner : ∀ ht : List Name,
      ((powerset N).map fun og =>
        ((powerset (N.filter fun x => decide (x ∉ og))).map fun tg =>
          if geneOf og tg n = g then joint_probability people og tg ht else 0).sum).sum
      = PROBS_gene g * PROBS_trait g (decide (n ∈ ht)) *
        ((powerset E).map fun og =>
          ((powerset (E.filter fun x => decide (x ∉ og))).map fun tg =>
            Rest og tg ht).sum).sum := by
    intro ht
    have hFog : ∀ s t, memEq s t →
        ((powerset (N.filter fun x => decide (x ∉ s))).map fun tg =>
          if geneOf s tg n = g then joint_probability people s tg ht else 0).sum =
        ((powerset (N.filter fun x => decide (x ∉ t))).map fun tg =>
          if geneOf t tg n = g then joint_probability people t tg ht else 0).sum := by
      intro s t hst
      have hdom : (N.filter fun x => decide (x ∉ s)) = N.filter fun x => decide (x ∉ t) :=
        List.filter_congr fun x _ => decide_eq_decide.mpr (not_congr (hst x))
      rw [hdom]
      refine sum_map_congr fun tg _ => ?_
      have hgeq : geneOf s tg n = geneOf t tg n := geneOf_congr_full hst (fun _ => Iff.rfl) n
      exact if_congr (by rw [hgeq])
        (joint_probability_congr_full people hst (fun _ => Iff.rfl) (fun _ => Iff.rfl)) rfl
    rw [sum_powerset_peel _ hFog hnN, ← hEdef]
    have hstep2 : ∀ og' ∈ powerset E,
        (((powerset (N.filter fun x => decide (x ∉ og'))).map fun tg =>
            if geneOf og' tg n = g then joint_probability people og' tg ht else 0).sum +
         ((powerset (N.filter fun x => decide (x ∉ n :: og'))).map fun tg =>
            if geneOf (n :: og') tg n = g then joint_probability people (n :: og') tg ht
            else 0).sum) =
        PROBS_gene g * PROBS_trait g (decide (n ∈ ht)) *
          ((powerset (E.filter fun x => decide (x ∉ og'))).map fun tg =>
            Rest og' tg ht).sum := by
      intro og' hog'
      have hnog' : n ∉ og' := hnE' hog'
      have hd2 : (N.filter fun x => decide (x ∉ n :: og')) =
          E.filter fun x => decide (x ∉ og') := by
        rw [hEdef]
        exact filter_not_mem_cons hndN n og'
      have hmemf : n ∈ N.filter fun x => decide (x ∉ og') :=
        List.mem_filter.mpr ⟨hnN, decide_eq_true hnog'⟩
      have herase : (N.filter fun x => decide (x ∉ og')).erase n =
          E.filter fun x => decide (x ∉ og') := by
        rw [hEdef]
        exact filter_erase_comm hndN _ n
      have hFtg : ∀ s t, memEq s t →
          (if geneOf og' s n = g then joint_probability people og' s ht else 0) =
          (if geneOf og' t n = g then joint_probability people og' t ht else 0) := by
        intro s t hst
        have hgeq : geneOf og' s n = geneOf og' t n :=
          geneOf_congr_full (fun _ => Iff.rfl) hst n
        exact if_congr (by rw [hgeq])
          (joint_probability_congr_full people (fun _ => Iff.rfl) hst (fun _ => Iff.rfl)) rfl
      rw [sum_powerset_peel _ hFtg hmemf, herase, hd2]
      rw [← sum_map_add]
      have hstep3 : ∀ tg' ∈ powerset (E.filter fun x => decide (x ∉ og')),
          ((if geneOf og' tg' n = g then joint_probability people og' tg' ht else 0) +
            (if geneOf og' (n :: tg') n = g then joint_probability people og' (n :: tg') ht
              else 0)) +
          (if geneOf (n :: og') tg' n = g then joint_probability people (n :: og') tg' ht
            else 0) =
          PROBS_gene g * PROBS_trait g (decide (n ∈ ht)) * Rest og' tg' ht := by
        intro tg' htg'
        have hntg' : n ∉ tg' := fun hn' =>
          hnE (List.mem_of_mem_filter (mem_of_mem_powerset htg' n hn'))
        have hg0 : geneOf og' tg' n = 0 := by
          unfold geneOf
          rw [if_neg hnog', if_neg hntg']
        have hg2 : geneOf og' (n :: tg') n = 2 := by
          unfold geneOf
          rw [if_neg hnog', if_pos (List.mem_cons_self _ _)]
        have hg1 : geneOf (n :: og') tg' n = 1 := by
          unfold geneOf
          rw [if_pos (List.mem_cons_self _ _)]
        have hR2 : Rest og' (n :: tg') ht = Rest og' tg' ht :=
          hRc (fun x _ => Iff.rfl)
            (fun x hx => by simp [List.mem_cons, hx]) (fun x _ => Iff.rfl)
        have hR1 : Rest (n :: og') tg' ht = Rest og' tg' ht :=
          hRc (fun x hx => by simp [List.mem_cons, hx])
            (fun x _ => Iff.rfl) (fun x _ => Iff.rfl)
        rw [hJ og' tg' ht, hJ og' (n :: tg') ht, hJ (n :: og') tg' ht, hg0, hg2, hg1, hR2, hR1]
        rcases hg with rfl | rfl | rfl
        · norm_num [PROBS_gene]
        · norm_num [PROBS_gene]
        · norm_num [PROBS_gene]
      rw [sum_map_congr hstep3, sum_map_mul_left]
    rw [sum_map_congr hstep2, sum_map_mul_left]
  rw [hnest]
  have hpt : ∀ ht ∈ powerset N,
      (if fails_evidence people ht then 0
        else ((powerset N).map fun og =>
          ((powerset (N.filter fun x => decide (x ∉ og))).map fun tg =>
            if geneOf og tg n = g then joint_probability people og tg ht else 0).sum).sum) =
      (if fails_evidence people ht then 0
        else PROBS_gene g * PROBS_trait g (decide (n ∈ ht)) *
          ((powerset E).map fun og =>
            ((powerset (E.filter fun x => decide (x ∉ og))).map fun tg =>
              Rest og tg ht).sum).sum) := fun ht _ => by rw [inner ht]
  rw [sum_map_congr hpt]
  have hFht : ∀ s t, memEq s t →
      (if fails_evidence people s then 0
        else PROBS_gene g * PROBS_trait g (decide (n ∈ s)) *
          ((powerset E).map fun og =>
            ((powerset (E.filter fun x => decide (x ∉ og))).map fun tg =>
              Rest og tg s).sum).sum) =
      (if fails_evidence people t then 0
        else PROBS_gene g * PROBS_trait g (decide (n ∈ t)) *
          ((powerset E).map fun og =>
            ((powerset (E.filter fun x => decide (x ∉ og))).map fun tg =>
              Rest og tg t).sum).sum) := by
    intro s t hst
    have hfe' : fails_evidence people s = fails_evidence people t :=
      fails_evidence_congr_full people hst
    have hdec : decide (n ∈ s) = decide (n ∈ t) := decide_eq_decide.mpr (hst n)
    have hRs : ((powerset E).map fun og =>
        ((powerset (E.filter fun x => decide (x ∉ og))).map fun tg =>
          Rest og tg s).sum).sum =
        ((powerset E).map fun og =>
          ((powerset (E.filter fun x => decide (x ∉ og))).map fun tg =>
            Rest og tg t).sum).sum :=
      sum_map_congr fun og _ => sum_map_congr fun tg _ =>
        hRc (fun _ _ => Iff.rfl) (fun _ _ => Iff.rfl) (fun x _ => hst x)
    rw [hfe', hdec, hRs]
  rw [sum_powerset_peel _ hFht hnN, ← hEdef]
  have hfinal : ∀ ht' ∈ powerset E,
      ((if fails_evidence people ht' then 0
        else PROBS_gene g * PROBS_trait g (decide (n ∈ ht')) *
          ((powerset E).map fun og =>
            ((powerset (E.filter fun x => decide (x ∉ og))).map fun tg =>
              Rest og tg ht').sum).sum) +
       (if fails_evidence people (n :: ht') then 0
        else PROBS_gene g * PROBS_trait g (decide (n ∈ n :: ht')) *
          ((powerset E).map fun og =>
            ((powerset (E.filter fun x => decide (x ∉ og))).map fun tg =>
              Rest og tg (n :: ht')).sum).sum)) =
      PROBS_gene g *
        (if fails_evidence people ht' then 0
          else ((powerset E).map fun og =>
            ((powerset (E.filter fun x => decide (x ∉ og))).map fun tg =>
              Rest og tg ht').sum).sum) := by
    intro ht' hht'
    have hnht' : n ∉ ht' := hnE' hht'
    have hfe2 : fails_evidence people (n :: ht') = fails_evidence people ht' :=
      hfeOff fun x hx => by simp [List.mem_cons, hx]
    have hd1 : decide (n ∈ ht') = false := decide_eq_false hnht'
    have hd2 : decide (n ∈ n :: ht') = true := decide_eq_true (List.mem_cons_self _ _)
    have hRS : ((powerset E).map fun og =>
        ((powerset (E.filter fun x => decide (x ∉ og))).map fun tg =>
          Rest og tg (n :: ht')).sum).sum =
        ((powerset E).map fun og =>
          ((powerset (E.filter fun x => decide (x ∉ og))).map fun tg =>
            Rest og tg ht').sum).sum :=
      sum_map_congr fun og _ => sum_map_congr fun tg _ =>
        hRc (fun _ _ => Iff.rfl) (fun _ _ => Iff.rfl)
          (fun x hx => by simp [List.mem_cons, hx])
    rw [hfe2, hd1, hd2, hRS]
    rcases hfc : fails_evidence people ht'
    · simp only [Bool.false_eq_true, if_false]
      rcases hg with rfl | rfl | rfl
      · norm_num [PROBS_trait]
        ring
      · norm_num [PROBS_trait]
        ring
      · norm_num [PROBS_trait]
        ring
    · simp
  rw [sum_map_congr hfinal, sum_map_mul_left]


lemma accumDist_isolated (people : People) (n : Name)
    (hnd : (people.map Prod.fst).Nodup)
    (hmem : (n, (⟨none, none, none⟩ : PersonInfo)) ∈ people)
    (hpar : ∀ p ∈ people, p.2.mother ≠ some n ∧ p.2.father ≠ some n) :
    ∃ K : ℚ, (accumDist people n).gene0 = 96/100 * K ∧
      (accumDist people n).gene1 = 3/100 * K ∧
      (accumDist people n).gene2 = 1/100 * K := by
  obtain ⟨l1, l2, hpe⟩ := List.append_of_mem hmem
  refine ⟨((powerset ((people.map Prod.fst).erase n)).map fun ht =>
      if fails_evidence people ht then 0
      else ((powerset ((people.map Prod.fst).erase n)).map fun og =>
        ((powerset (((people.map Prod.fst).erase n).filter fun x => decide (x ∉ og))).map
          fun tg => (l1.map fun p => person_factor og tg ht p.1 p.2).prod *
            (l2.map fun p => person_factor og tg ht p.1 p.2).prod).sum).sum).sum, ?_, ?_, ?_⟩
  · rw [accumDist_gene0]
    exact bucket_sum_isolated people n l1 l2 hpe hnd hpar 0 (Or.inl rfl)
  · rw [accumDist_gene1]
    exact bucket_sum_isolated people n l1 l2 hpe hnd hpar 1 (Or.inr (Or.inl rfl))
  · rw [accumDist_gene2]
    exact bucket_sum_isolated people n l1 l2 hpe hnd hpar 2 (Or.inr (Or.inr rfl))

/-- C8 (amended): a person with no parents, no observed trait, and of whom
nobody is a child keeps exactly the prior gene distribution after the full
inference run. -/
theorem C8_isolated_founder_prior (people : People) (n : Name)
    (hnd : (people.map Prod.fst).Nodup)
    (hmem : (n, (⟨none, none, none⟩ : PersonInfo)) ∈ people)
    (hpar : ∀ p ∈ people, p.2.mother ≠ some n ∧ p.2.father ≠ some n)
    (res : List (Name × Dist)) (hres : infer people = some res) :
    ∀ d, (n, d) ∈ res → d.gene0 = 96/100 ∧ d.gene1 = 3/100 ∧ d.gene2 = 1/100 := by
  intro d hd
  obtain ⟨K, h0, h1, h2⟩ := accumDist_isolated people n hnd hmem hpar
  obtain ⟨hgS, htS, hd'⟩ := normalizePerson_some_inv (res_entry people hres hd)
  have hsum : geneSum (accumDist people n) = K := by
    rw [geneSum, h0, h1, h2]
    ring
  have hK : K ≠ 0 := fun h => hgS (by rw [hsum, h])
  subst hd'
  refine ⟨?_, ?_, ?_⟩
  · show (accumDist people n).gene0 / geneSum (accumDist people n) = 96/100
    rw [h0, hsum, mul_div_assoc, div_self hK, mul_one]
  · show (accumDist people n).gene1 / geneSum (accumDist people n) = 3/100
    rw [h1, hsum, mul_div_assoc, div_self hK, mul_one]
  · show (accumDist people n).gene2 / geneSum (accumDist people n) = 1/100
    rw [h2, hsum, mul_div_assoc, div_self hK, mul_one]

set_option maxRecDepth 4000 in
lemma infer_popIso : infer popIso =
    some [(0, ⟨24/25, 3/100, 1/100, 329/10000, 9671/10000⟩),
      (1, ⟨96/329, 24/47, 65/329, 1, 0⟩)] := by
  unfold infer
  rw [run_inference_entrywise]
  rw [show popIso.map (fun p => (p.1, accumDist popIso p.1)) =
      [(0, accumDist popIso 0), (1, accumDist popIso 1)] from rfl]
  rw [accumDist_eq_scale popIso 0, accumDist_eq_scale popIso 1]
  rw [show accumDistN popIso 0 =
      ⟨31584000000, 987000000, 329000000, 1082410000, 31817590000⟩ from by decide,
    show accumDistN popIso 1 =
      ⟨9600000000, 16800000000, 6500000000, 32900000000, 0⟩ from by decide,
    show popIso.length = 2 from rfl]
  simp only [normalize]
  rw [normalizePerson_scale _ _ (by positivity) (by norm_num) (by norm_num),
    normalizePerson_scale _ _ (by positivity) (by norm_num) (by norm_num)]
  norm_num

theorem C8_witness :
    ((⟨24/25, 3/100, 1/100, 329/10000, 9671/10000⟩ : Dist)).gene0 = 96/100 ∧
    ((⟨24/25, 3/100, 1/100, 329/10000, 9671/10000⟩ : Dist)).gene1 = 3/100 ∧
    ((⟨24/25, 3/100, 1/100, 329/10000, 9671/10000⟩ : Dist)).gene2 = 1/100 :=
  C8_isolated_founder_prior popIso 0 (by decide) (by simp [popIso]) (by decide)
    [(0, ⟨24/25, 3/100, 1/100, 329/10000, 9671/10000⟩),
      (1, ⟨96/329, 24/47, 65/329, 1, 0⟩)] infer_popIso
    ⟨24/25, 3/100, 1/100, 329/10000, 9671/10000⟩ (by simp)

end Heredity

